import Mathlib

/-!
Shallow embedding of the poker calculator (`mainscript.py`) and proofs about it.

Conventions of the embedding:
* a card is a pair `(rank, suit)` of naturals, as in the source;
* the generator state (`_seed`) is a natural number (the source keeps it in
  `[0, 2^31)` via the `% 2147483648`), threaded explicitly;
* Python code that can raise (`ZeroDivisionError`, `IndexError`) is modelled
  with `Option`, `none` standing for a raised exception;
* Python's `%` on integers is floored modulo, i.e. `Int.fmod`;
* Python's float division in the simulator result is modelled exactly in `ℚ`;
* Python tuples of ints (the hand-strength descriptors) are `List Nat`,
  compared with `tupleLt`, the Python `<` on int tuples (lexicographic,
  a strict prefix is smaller).
-/

abbrev Card := Nat × Nat

abbrev Seed := Nat

/-- The LCG state update `_seed = (1103515245 * _seed + 12345) % 2147483648`. -/
def rand_step (s : Seed) : Seed := (1103515245 * s + 12345) % 2147483648

/-- `rand_int(low, high)`: updates the seed, then returns `low + _seed % (high-low+1)`.
Python raises `ZeroDivisionError` when `high - low + 1 == 0` (modelled as `none`);
`%` is Python's floored modulo (`Int.fmod`). -/
def rand_int (low high : Int) (s : Seed) : Option (Int × Seed) :=
  let s1 := rand_step s
  let d := high - low + 1
  if d = 0 then none else some (low + Int.fmod (Int.ofNat s1) d, s1)

/-- The simultaneous assignment `lst[i], lst[j] = lst[j], lst[i]`. -/
def listSwap (l : List Card) (i j : Nat) : List Card :=
  (l.set i (l.getD j (0, 0))).set j (l.getD i (0, 0))

/-- Python slice split: `l[:n]` and `l[n:]` cut `l` at this index. A negative
`n` counts from the end (`len + n`, clamped at 0); a large `n` is clamped by
`take`/`drop` themselves. -/
def pySplitIdx (len : Nat) (n : Int) : Nat :=
  if n < 0 then len - (-n).toNat else n.toNat

/-- The index sequence `range(n - 1, 0, -1)`, i.e. `[n-1, ..., 1]`. -/
def downIdx (n : Nat) : List Nat := (List.range' 1 (n - 1)).reverse

/-- The body of `shuffle_in_place`: for each `i`, draw `j = rand_int(0, i)` and swap. -/
def shuffleGo : List Nat → List Card → Seed → Option (List Card × Seed)
  | [], l, s => some (l, s)
  | i :: rest, l, s =>
    match rand_int 0 (Int.ofNat i) s with
    | none => none
    | some (j, s1) => shuffleGo rest (listSwap l i j.toNat) s1

/-- Fisher-Yates `shuffle_in_place`, from the last index down to 1. -/
def shuffle_in_place (l : List Card) (s : Seed) : Option (List Card × Seed) :=
  shuffleGo (downIdx l.length) l s

/-- `make_deck()`: ranks 2..14 (rank-major) times suits 0..3. -/
def make_deck : List Card :=
  (List.range' 2 13).flatMap fun rank => (List.range 4).map fun suit => (rank, suit)

/-- `remove_cards_from_deck(deck, cards_to_remove)`: keep the cards of `deck` not
in `cards_to_remove` (membership test, order of `deck` preserved). -/
def remove_cards_from_deck (deck cards_to_remove : List Card) : List Card :=
  deck.filter fun c => decide (c ∉ cards_to_remove)

/-- Python `<` on int tuples: lexicographic, a strict prefix is smaller. -/
def tupleLt : List Nat → List Nat → Bool
  | [], [] => false
  | [], _ :: _ => true
  | _ :: _, [] => false
  | a :: xs, b :: ys => if a < b then true else if b < a then false else tupleLt xs ys

/-- Sort key for `sorted(cards5, key=rank, reverse=True)`: descending by rank. -/
def cardGE (a b : Card) : Prop := b.1 ≤ a.1

instance : DecidableRel cardGE := fun a b => inferInstanceAs (Decidable (b.1 ≤ a.1))

instance : IsTotal Card cardGE := ⟨fun a b => Nat.le_total b.1 a.1⟩

instance : IsTrans Card cardGE := ⟨fun _ _ _ h1 h2 => Nat.le_trans h2 h1⟩

/-- Descending order on naturals, for `sort(reverse=True)` on ranks. -/
def natGE (a b : Nat) : Prop := b ≤ a

instance : DecidableRel natGE := fun a b => inferInstanceAs (Decidable (b ≤ a))

instance : IsTotal Nat natGE := ⟨fun a b => Nat.le_total b a⟩

instance : IsTrans Nat natGE := ⟨fun _ _ _ h1 h2 => Nat.le_trans h2 h1⟩

instance : IsAntisymm Nat natGE := ⟨fun _ _ h1 h2 => Nat.le_antisymm h2 h1⟩

/-- Descending order on `(count, rank)` pairs, for
`count_rank_pairs.sort(key=(count, rank), reverse=True)` (keys are distinct,
so stability is immaterial). -/
def pairGE (a b : Nat × Nat) : Prop := b.1 < a.1 ∨ (b.1 = a.1 ∧ b.2 ≤ a.2)

instance : DecidableRel pairGE :=
  fun a b => inferInstanceAs (Decidable (b.1 < a.1 ∨ (b.1 = a.1 ∧ b.2 ≤ a.2)))

/-- `sorted(cards5, key=rank, reverse=True)`. -/
def sortCardsDesc (cards : List Card) : List Card := List.insertionSort cardGE cards

/-- `kickers.sort(reverse=True)`. -/
def sortNatDesc (l : List Nat) : List Nat := List.insertionSort natGE l

/-- First-occurrence deduplication, as the source's loop
`if r not in distinct_ranks_desc: append(r)`. -/
def dedupF : List Nat → List Nat
  | [] => []
  | r :: rest => r :: (dedupF rest).filter (fun x => x != r)

/-- The window scan for 5 consecutive distinct ranks: for each start index,
test `seq[0] - seq[4] == 4`, first hit wins. -/
def findWindow : List Nat → Option Nat
  | a :: b :: c :: d :: e :: rest =>
    if a - e == 4 then some a else findWindow (b :: c :: d :: e :: rest)
  | _ => none

/-- The straight detection of `rank_5cards` (guarded by "at least 5 distinct
ranks"): a consecutive window, else the wheel `{14,5,4,3,2}` with top rank 5.
Returns `(is_straight, top_straight_rank)`. -/
def straightInfo (distinct : List Nat) : Bool × Nat :=
  if 5 ≤ distinct.length then
    match findWindow distinct with
    | some t => (true, t)
    | none =>
      if 14 ∈ distinct ∧ 5 ∈ distinct ∧ 4 ∈ distinct ∧ 3 ∈ distinct ∧ 2 ∈ distinct then
        (true, 5)
      else (false, 0)
  else (false, 0)

/-- The kicker collection loops: each `(cnt, rnk)` group contributes `cnt`
copies of `rnk`, then `sort(reverse=True)`. -/
def kickerList (pairs : List (Nat × Nat)) : List Nat :=
  sortNatDesc (pairs.flatMap fun p => List.replicate p.1 p.2)

/-- The one-pair return `(2, pair_rank, kickers[0], kickers[1], kickers[2])`;
`none` models the `IndexError` when fewer than 3 kickers exist. -/
def onePairOut (p0 : Nat × Nat) (rest : List (Nat × Nat)) : Option (List Nat) :=
  match kickerList rest with
  | k0 :: k1 :: k2 :: _ => some [2, p0.2, k0, k1, k2]
  | _ => none

/-- The flush/high-card returns `(cat, ranks[0], ..., ranks[4])`; `none` models
the `IndexError` when fewer than 5 ranks exist. -/
def top5 (cat : Nat) (ranks : List Nat) : Option (List Nat) :=
  match ranks with
  | r0 :: r1 :: r2 :: r3 :: r4 :: _ => some [cat, r0, r1, r2, r3, r4]
  | _ => none

/-- The list the source calls `count_rank_pairs`: one `(count, rank)` pair per
distinct rank, sorted by `(count, rank)` descending. -/
def countRankPairs (ranks : List Nat) : List (Nat × Nat) :=
  List.insertionSort pairGE ((dedupF ranks).map fun r => (ranks.count r, r))

/-- Everything `rank_5cards` does after computing the descending rank list and
the flush flag (the rest of the source depends only on these two). -/
def rank5_core (ranks : List Nat) (is_flush : Bool) : Option (List Nat) :=
  let distinct := dedupF ranks
  let si := straightInfo distinct
  if is_flush && si.1 then some [9, si.2]
  else
    match countRankPairs ranks with
    | [] => none
    | p0 :: rest =>
      if p0.1 == 4 then
        match rest with
        | [] => none
        | p1 :: _ => some [8, p0.2, p1.2]
      else if p0.1 == 3 then
        match rest with
        | p1 :: _ =>
          if p1.1 == 2 then some [7, p0.2, p1.2]
          else some ([4, p0.2] ++ kickerList rest)
        | [] => some ([4, p0.2] ++ kickerList rest)
      else if p0.1 == 2 then
        match rest with
        | p1 :: rest2 =>
          if p1.1 == 2 then
            match rest2 with
            | [] => none
            | p2 :: _ =>
              some [3, if p0.2 < p1.2 then p1.2 else p0.2,
                    if p0.2 < p1.2 then p0.2 else p1.2, p2.2]
          else onePairOut p0 rest
        | [] => onePairOut p0 rest
      else
        if is_flush then top5 6 ranks
        else if si.1 then some [5, si.2]
        else top5 1 ranks

/-- `rank_5cards`: sort descending by rank, read the suits, compute the flush
flag `suits.count(suits[0]) == 5` (`none` models the `IndexError` of `suits[0]`
on an empty hand), then classify. -/
def rank_5cards (cards5 : List Card) : Option (List Nat) :=
  let sorted_cards := sortCardsDesc cards5
  let suits := sorted_cards.map Prod.snd
  match suits with
  | [] => none
  | s0 :: _ => rank5_core (sorted_cards.map Prod.fst) (suits.count s0 == 5)

/-- The nested index loops of `rank_7cards`: all `i<j<k<l<m` with the source's
`range` bounds, each yielding the corresponding 5-card selection. -/
def combos5 (cards7 : List Card) : List (List Card) :=
  let n := cards7.length
  (List.range' 0 (n - 4)).flatMap fun i =>
    (List.range' (i + 1) (n - 3 - (i + 1))).flatMap fun j =>
      (List.range' (j + 1) (n - 2 - (j + 1))).flatMap fun k =>
        (List.range' (k + 1) (n - 1 - (k + 1))).flatMap fun l =>
          (List.range' (l + 1) (n - (l + 1))).map fun m =>
            [cards7.getD i (0, 0), cards7.getD j (0, 0), cards7.getD k (0, 0),
             cards7.getD l (0, 0), cards7.getD m (0, 0)]

/-- The accumulation `if r5 > best: best = r5` over the combinations. -/
def bestFold : List (List Card) → List Nat → Option (List Nat)
  | [], best => some best
  | c :: rest, best =>
    match rank_5cards c with
    | none => none
    | some r5 => bestFold rest (if tupleLt best r5 then r5 else best)

/-- `rank_7cards`: best `rank_5cards` value over all 5-of-n selections,
starting from `best = (0,)`. -/
def rank_7cards (cards7 : List Card) : Option (List Nat) :=
  bestFold (combos5 cards7) [0]

/-- The reduced deck built once before the trial loop:
`[c for c in deck if c not in player_cards + known_community]`. -/
def baseDeckOf (player_cards known_community deck : List Card) : List Card :=
  deck.filter fun c => decide (c ∉ player_cards ++ known_community)

/-- The opponent dealing loop: each opponent takes `sim_deck[:2]`,
the deck becomes `sim_deck[2:]`. Returns the holes (in deal order) and the
remaining deck. -/
def dealOpp : Nat → List Card → List (List Card) × List Card
  | 0, d => ([], d)
  | n + 1, d =>
    let res := dealOpp n (d.drop 2)
    (d.take 2 :: res.1, res.2)

/-- The opponent comparison loop: `best_count` counts opponents whose rank
strictly exceeds the player's, `same_count` (via `elif`) those who tie it. -/
def oppFold (player_rank : List Nat) (full_community : List Card) :
    List (List Card) → Nat → Nat → Option (Nat × Nat)
  | [], bc, sc => some (bc, sc)
  | oh :: rest, bc, sc =>
    match rank_7cards (oh ++ full_community) with
    | none => none
    | some orank =>
      if tupleLt player_rank orank then oppFold player_rank full_community rest (bc + 1) sc
      else if orank == player_rank then oppFold player_rank full_community rest bc (sc + 1)
      else oppFold player_rank full_community rest bc sc

/-- The per-trial loop of `simulate_win_probability`: shuffle a fresh copy of
the reduced deck, complete the community to 5 cards, deal the opponents, rank
everyone, and update the win/tie/total counters. -/
def simLoop (player_cards known_community : List Card) (num_opponents : Nat)
    (base_deck : List Card) :
    Nat → Nat → Nat → Nat → Seed → Option (Nat × Nat × Nat × Seed)
  | 0, wins, ties, total, s => some (wins, ties, total, s)
  | n + 1, wins, ties, total, s =>
    match shuffle_in_place base_deck s with
    | none => none
    | some (sim1, s1) =>
      let community_needed : Int := 5 - (known_community.length : Int)
      let cut := pySplitIdx sim1.length community_needed
      let community_rest := sim1.take cut
      let sim2 := sim1.drop cut
      let full_community := known_community ++ community_rest
      let opp_holes := (dealOpp num_opponents sim2).1
      match rank_7cards (player_cards ++ full_community) with
      | none => none
      | some player_rank =>
        match oppFold player_rank full_community opp_holes 0 0 with
        | none => none
        | some (bc, sc) =>
          let wins1 := if bc == 0 then (if sc == 0 then wins + 1 else wins) else wins
          let ties1 := if bc == 0 then (if sc == 0 then ties else ties + 1) else ties
          simLoop player_cards known_community num_opponents base_deck n
            wins1 ties1 (total + 1) s1

/-- `simulate_win_probability`: reduce the deck once, run the trials, return
`float(wins + ties) / float(total)` (exact in `ℚ`; `none` models the
`ZeroDivisionError` when `total == 0`, i.e. `sims == 0`). -/
def simulate_win_probability (player_cards known_community : List Card)
    (num_opponents : Nat) (deck : List Card) (sims : Nat) (s : Seed) :
    Option (ℚ × Seed) :=
  match simLoop player_cards known_community num_opponents
      (baseDeckOf player_cards known_community deck) sims 0 0 0 s with
  | none => none
  | some (wins, ties, total, sF) =>
    if total == 0 then none
    else some (((wins : ℚ) + (ties : ℚ)) / (total : ℚ), sF)

/-- Declarative outcome of one trial, for stating the classification rule. -/
inductive TrialRes where
  | win : TrialRes
  | tie : TrialRes
  | loss : TrialRes
deriving DecidableEq

/-- The classification rule as the specification states it: a loss when some
opponent strictly exceeds the hero, else a tie when some opponent ties the
hero exactly, else a win. -/
def classify (player_rank : List Nat) (opp_ranks : List (List Nat)) : TrialRes :=
  if ∃ r ∈ opp_ranks, tupleLt player_rank r = true then TrialRes.loss
  else if ∃ r ∈ opp_ranks, r = player_rank then TrialRes.tie
  else TrialRes.win

/-- The `rank_7cards` values of the opponents, in deal order. -/
def ranksOf (full_community : List Card) : List (List Card) → Option (List (List Nat))
  | [] => some []
  | oh :: rest =>
    match rank_7cards (oh ++ full_community), ranksOf full_community rest with
    | some r, some rs => some (r :: rs)
    | _, _ => none

/-- Reference run of the trials, producing each trial's declarative
classification (using the same dealing mechanics as `simLoop`). -/
def trialResults (player_cards known_community : List Card) (num_opponents : Nat)
    (base_deck : List Card) : Nat → Seed → Option (List TrialRes × Seed)
  | 0, s => some ([], s)
  | n + 1, s =>
    match shuffle_in_place base_deck s with
    | none => none
    | some (sim1, s1) =>
      let community_needed : Int := 5 - (known_community.length : Int)
      let cut := pySplitIdx sim1.length community_needed
      let full_community := known_community ++ sim1.take cut
      let opp_holes := (dealOpp num_opponents (sim1.drop cut)).1
      match rank_7cards (player_cards ++ full_community),
          ranksOf full_community opp_holes with
      | some player_rank, some opp_ranks =>
        match trialResults player_cards known_community num_opponents base_deck n s1 with
        | none => none
        | some (rs, sF) => some (classify player_rank opp_ranks :: rs, sF)
      | _, _ => none

/-! Heap model for the frame property of the simulator: Python lists live in a
heap of cells addressed by naturals; the only in-place mutation in the core is
`shuffle_in_place` on the per-trial clone `sim_deck`, so only that list is
given a heap cell, freshly allocated each trial, exactly as
`sim_deck = base_deck[:]` allocates a new list each trial. The caller's
`player_cards`, `known_community` and `deck` lists sit in pre-existing cells
that are read (per trial, as Python re-reads the objects) but never written. -/

abbrev Heap := List (List Card)

/-- Read the list stored at address `a`. -/
def hRead (h : Heap) (a : Nat) : List Card := (h[a]?).getD []

/-- Overwrite the list stored at address `a` (in-place list mutation). -/
def hWrite (h : Heap) (a : Nat) (v : List Card) : Heap := h.set a v

/-- Allocate a fresh cell holding `v`; its address is the old heap length. -/
def hAlloc (h : Heap) (v : List Card) : Heap := h ++ [v]

/-- `shuffle_in_place` acting on the list stored at address `a`. -/
def shuffle_heap (a : Nat) (h : Heap) (s : Seed) : Option (Heap × Seed) :=
  match shuffle_in_place (hRead h a) s with
  | none => none
  | some (l1, s1) => some (hWrite h a l1, s1)

/-- The trial loop with the heap made explicit: each trial allocates a fresh
cell for `sim_deck = base_deck[:]` and shuffles that cell in place; all other
list operations (slicing, concatenation) build fresh values. -/
def simHeapLoop (pA cA : Nat) (num_opponents : Nat) (base_deck : List Card) :
    Nat → Nat → Nat → Nat → Heap → Seed → Option (Nat × Nat × Nat × Heap × Seed)
  | 0, wins, ties, total, h, s => some (wins, ties, total, h, s)
  | n + 1, wins, ties, total, h, s =>
    let player_cards := hRead h pA
    let known_community := hRead h cA
    let simA := h.length
    let h1 := hAlloc h base_deck
    match shuffle_heap simA h1 s with
    | none => none
    | some (h2, s1) =>
      let sim1 := hRead h2 simA
      let community_needed : Int := 5 - (known_community.length : Int)
      let cut := pySplitIdx sim1.length community_needed
      let community_rest := sim1.take cut
      let sim2 := sim1.drop cut
      let full_community := known_community ++ community_rest
      let opp_holes := (dealOpp num_opponents sim2).1
      match rank_7cards (player_cards ++ full_community) with
      | none => none
      | some player_rank =>
        match oppFold player_rank full_community opp_holes 0 0 with
        | none => none
        | some (bc, sc) =>
          let wins1 := if bc == 0 then (if sc == 0 then wins + 1 else wins) else wins
          let ties1 := if bc == 0 then (if sc == 0 then ties else ties + 1) else ties
          simHeapLoop pA cA num_opponents base_deck n wins1 ties1 (total + 1) h2 s1

/-- `simulate_win_probability` with the caller's three lists living at heap
addresses `pA` (hole cards), `cA` (known community) and `dA` (deck). -/
def simulate_win_probability_heap (pA cA dA : Nat) (num_opponents sims : Nat)
    (h : Heap) (s : Seed) : Option (ℚ × Heap × Seed) :=
  let base_deck := baseDeckOf (hRead h pA) (hRead h cA) (hRead h dA)
  match simHeapLoop pA cA num_opponents base_deck sims 0 0 0 h s with
  | none => none
  | some (wins, ties, total, hF, sF) =>
    if total == 0 then none
    else some (((wins : ℚ) + (ties : ℚ)) / (total : ℚ), hF, sF)

/-- An operation against the shared generator: a bounded-integer query or an
in-place shuffle (which draws internally through the same generator). -/
inductive GenOp where
  | query : Int → Int → GenOp
  | shuffleOp : List Card → GenOp

/-- Observable output of one generator operation. -/
inductive GenOut where
  | intOut : Int → GenOut
  | permOut : List Card → GenOut
deriving DecidableEq

/-- Run a sequence of generator operations from a seed, collecting the
observable outputs and the final state. -/
def runOps : List GenOp → Seed → Option (List GenOut × Seed)
  | [], s => some ([], s)
  | GenOp.query low high :: rest, s =>
    match rand_int low high s with
    | none => none
    | some (v, s1) =>
      match runOps rest s1 with
      | none => none
      | some (outs, sF) => some (GenOut.intOut v :: outs, sF)
  | GenOp.shuffleOp l :: rest, s =>
    match shuffle_in_place l s with
    | none => none
    | some (l1, s1) =>
      match runOps rest s1 with
      | none => none
      | some (outs, sF) => some (GenOut.permOut l1 :: outs, sF)

/-! Order facts about `tupleLt` (Python tuple comparison) -/

theorem tupleLt_cons (a b : Nat) (xs ys : List Nat) :
    tupleLt (a :: xs) (b :: ys)
      = if a < b then true else if b < a then false else tupleLt xs ys := rfl

theorem tupleLt_irrefl : ∀ l : List Nat, tupleLt l l = false
  | [] => rfl
  | a :: xs => by simp [tupleLt_cons, tupleLt_irrefl xs]

theorem tupleLt_trans : ∀ (l1 l2 l3 : List Nat), tupleLt l1 l2 = true →
    tupleLt l2 l3 = true → tupleLt l1 l3 = true := by
  intro l1
  induction l1 with
  | nil =>
    intro l2 l3 h1 h2
    cases l2 with
    | nil => exact h2
    | cons b ys =>
      cases l3 with
      | nil => simp [tupleLt] at h2
      | cons c zs => rfl
  | cons a xs ih =>
    intro l2 l3 h1 h2
    cases l2 with
    | nil => simp [tupleLt] at h1
    | cons b ys =>
      cases l3 with
      | nil => simp [tupleLt] at h2
      | cons c zs =>
        rw [tupleLt_cons] at h1 h2 ⊢
        by_cases hab : a < b <;> by_cases hba : b < a <;>
          by_cases hbc : b < c <;> by_cases hcb : c < b <;>
            simp [hab, hba, hbc, hcb] at h1 h2 <;>
              by_cases hac : a < c <;> by_cases hca : c < a <;>
                simp [hac, hca] <;> try omega
        exact ih ys zs h1 h2

theorem tupleLt_connex : ∀ (l1 l2 : List Nat), tupleLt l1 l2 = false →
    tupleLt l2 l1 = false → l1 = l2 := by
  intro l1
  induction l1 with
  | nil =>
    intro l2 h1 _
    cases l2 with
    | nil => rfl
    | cons b ys => simp [tupleLt] at h1
  | cons a xs ih =>
    intro l2 h1 h2
    cases l2 with
    | nil => simp [tupleLt] at h2
    | cons b ys =>
      rw [tupleLt_cons] at h1 h2
      by_cases hab : a < b <;> by_cases hba : b < a <;>
        simp [hab, hba] at h1 h2 <;> try omega
      have : a = b := by omega
      rw [this, ih ys h1 h2]

theorem tupleGe_trans {l1 l2 l3 : List Nat} (h1 : tupleLt l1 l2 = false)
    (h2 : tupleLt l2 l3 = false) : tupleLt l1 l3 = false := by
  by_contra hlt
  have hlt' : tupleLt l1 l3 = true := by
    cases h : tupleLt l1 l3 with
    | false => exact absurd h hlt
    | true => rfl
  cases h21 : tupleLt l2 l1 with
  | false =>
    have he : l2 = l1 := tupleLt_connex l2 l1 h21 h1
    subst he
    rw [h2] at hlt'
    exact Bool.noConfusion hlt'
  | true =>
    have : tupleLt l2 l3 = true := tupleLt_trans l2 l1 l3 h21 hlt'
    rw [this] at h2
    exact Bool.noConfusion h2

theorem tupleLt_asymm {l1 l2 : List Nat} (h : tupleLt l1 l2 = true) :
    tupleLt l2 l1 = false := by
  cases h2 : tupleLt l2 l1 with
  | false => rfl
  | true =>
    have := tupleLt_trans l1 l2 l1 h h2
    rw [tupleLt_irrefl] at this
    exact Bool.noConfusion this

/-! The sequence generator: claims C3 and C4 -/

/-- Claim C3: for `low ≤ high`, `rand_int` returns
`low + new_state % (high - low + 1)` where the shared state is replaced by
`new_state = (1103515245 * s + 12345) % 2147483648`, and the returned value
lies in `[low, high]`. -/
theorem rand_int_in_range (low high : Int) (s : Seed) (h : low ≤ high) :
    rand_int low high s
      = some (low + Int.ofNat ((1103515245 * s + 12345) % 2147483648) % (high - low + 1),
          (1103515245 * s + 12345) % 2147483648)
    ∧ low ≤ low + Int.ofNat ((1103515245 * s + 12345) % 2147483648) % (high - low + 1)
    ∧ low + Int.ofNat ((1103515245 * s + 12345) % 2147483648) % (high - low + 1) ≤ high := by
  have hd : (0 : Int) < high - low + 1 := by omega
  have hfe : Int.fmod (Int.ofNat (rand_step s)) (high - low + 1)
      = Int.ofNat (rand_step s) % (high - low + 1) :=
    Int.fmod_eq_emod _ (le_of_lt hd)
  have hnn : 0 ≤ Int.ofNat (rand_step s) % (high - low + 1) :=
    Int.emod_nonneg _ (ne_of_gt hd)
  have hub : Int.ofNat (rand_step s) % (high - low + 1) < high - low + 1 :=
    Int.emod_lt_of_pos _ hd
  refine ⟨?_, by have := hnn; unfold rand_step at *; omega,
    by have := hub; unfold rand_step at *; omega⟩
  unfold rand_int
  simp only [if_neg (ne_of_gt hd), hfe]
  rfl

/-- Closed instance of claim C3 at a concrete query. -/
theorem rand_int_in_range_witness :
    rand_int 0 51 5674832
        = some (0 + Int.ofNat ((1103515245 * 5674832 + 12345) % 2147483648) % (51 - 0 + 1),
            (1103515245 * 5674832 + 12345) % 2147483648)
      ∧ 0 ≤ 0 + Int.ofNat ((1103515245 * 5674832 + 12345) % 2147483648) % (51 - 0 + 1)
      ∧ 0 + Int.ofNat ((1103515245 * 5674832 + 12345) % 2147483648) % (51 - 0 + 1) ≤ 51 :=
  rand_int_in_range 0 51 5674832 (by decide)

/-- Counterexample to claim C4 as stated: `rand_int(5, 2)` has `low > high`
but returns a value (Python's floored `%` by the negative `high - low + 1`
succeeds) instead of raising. -/
theorem rand_int_low_gt_high_no_raise :
    rand_int 5 2 5674832 = some (4, 1591278921) := by decide

/-- Claim C4 amended: with `low > high` the call only raises in the boundary
case `high = low - 1` (`ZeroDivisionError`); whenever `low > high + 1` it
silently returns a value, which lies in `[high + 2, low]`, and still advances
the state. -/
theorem rand_int_low_gt_high_behavior (low high : Int) (s : Seed) :
    (high = low - 1 → rand_int low high s = none)
    ∧ (high + 1 < low →
        ∃ v, rand_int low high s = some (v, rand_step s)
          ∧ high + 2 ≤ v ∧ v ≤ low) := by
  constructor
  · intro he
    unfold rand_int
    simp [he]
  · intro hlt
    have hd : high - low + 1 < 0 := by omega
    obtain ⟨n, hn⟩ := Int.eq_negSucc_of_lt_zero hd
    refine ⟨low + Int.fmod (Int.ofNat (rand_step s)) (high - low + 1), ?_, ?_, ?_⟩
    · unfold rand_int
      simp [ne_of_lt hd]
    · rw [hn]
      have hns : Int.negSucc n = -((n : Int) + 1) := Int.negSucc_eq n
      cases hm : rand_step s with
      | zero =>
        have h0 : Int.fmod (Int.ofNat 0) (Int.negSucc n) = 0 := rfl
        rw [h0]
        omega
      | succ m =>
        have hsucc : Int.fmod (Int.ofNat (Nat.succ m)) (Int.negSucc n)
            = Int.subNatNat (m % Nat.succ n) n := rfl
        rw [hsucc, Int.subNatNat_eq_coe]
        have hmod : m % Nat.succ n < Nat.succ n := Nat.mod_lt _ (Nat.succ_pos n)
        omega
    · rw [hn]
      have hns : Int.negSucc n = -((n : Int) + 1) := Int.negSucc_eq n
      cases hm : rand_step s with
      | zero =>
        have h0 : Int.fmod (Int.ofNat 0) (Int.negSucc n) = 0 := rfl
        rw [h0]
        omega
      | succ m =>
        have hsucc : Int.fmod (Int.ofNat (Nat.succ m)) (Int.negSucc n)
            = Int.subNatNat (m % Nat.succ n) n := rfl
        rw [hsucc, Int.subNatNat_eq_coe]
        have hmod : m % Nat.succ n < Nat.succ n := Nat.mod_lt _ (Nat.succ_pos n)
        omega

/-- Closed instance of the amended claim C4 at concrete inputs. -/
theorem rand_int_low_gt_high_behavior_witness :
    rand_int 7 6 5674832 = none
    ∧ ∃ v, rand_int 5 2 5674832 = some (v, rand_step 5674832) ∧ 4 ≤ v ∧ v ≤ 5 :=
  ⟨(rand_int_low_gt_high_behavior 7 6 5674832).1 (by decide),
    (rand_int_low_gt_high_behavior 5 2 5674832).2 (by decide)⟩

/-! Determinism of the generator: claim C7 -/

/-- Claim C7: two runs from the same seed issuing the same sequence of
generator operations (range queries and shuffles, the latter drawing
internally through `rand_int`) produce identical output sequences and the
same final state. -/
theorem runOps_deterministic (s1 s2 : Seed) (ops1 ops2 : List GenOp)
    (hs : s1 = s2) (hops : ops1 = ops2) : runOps ops1 s1 = runOps ops2 s2 := by
  subst hs
  subst hops
  rfl

/-- Closed instance of claim C7: a concrete pair of identical runs. -/
theorem runOps_deterministic_witness :
    runOps [GenOp.query 0 51, GenOp.shuffleOp make_deck, GenOp.query 0 5] 5674832
      = runOps [GenOp.query 0 51, GenOp.shuffleOp make_deck, GenOp.query 0 5] 5674832 :=
  runOps_deterministic 5674832 5674832 _ _ rfl rfl

/-! Deck exclusion: claim C8 -/

theorem mem_remove_cards (deck rm : List Card) (c : Card) :
    c ∈ remove_cards_from_deck deck rm ↔ (c ∈ deck ∧ c ∉ rm) := by
  simp [remove_cards_from_deck, List.mem_filter]

theorem length_filter_eq_self_one {rm : List Card} {b : Card} (hnd : rm.Nodup)
    (hb : b ∈ rm) : (rm.filter fun c => decide (c = b)).length = 1 := by
  induction rm with
  | nil => cases hb
  | cons a t ih =>
    rcases List.mem_cons.mp hb with rfl | hbt
    · have ht : t.filter (fun c => decide (c = b)) = [] :=
        List.filter_eq_nil_iff.mpr fun c hc => by
          simp only [decide_eq_true_eq]
          intro he
          exact (List.nodup_cons.mp hnd).1 (he ▸ hc)
      simp [List.filter_cons, ht]
    · have hne : ¬ a = b := fun he => (List.nodup_cons.mp hnd).1 (he ▸ hbt)
      simp only [List.filter_cons, decide_eq_true_eq, if_neg hne]
      exact ih (List.nodup_cons.mp hnd).2 hbt

theorem length_filter_mem : ∀ (l rm : List Card), l.Nodup → rm.Nodup →
    (∀ c ∈ rm, c ∈ l) → (l.filter fun c => decide (c ∈ rm)).length = rm.length := by
  intro l
  induction l with
  | nil =>
    intro rm _ _ hsub
    cases rm with
    | nil => simp
    | cons a t => exact absurd (hsub a (List.mem_cons_self a t)) (List.not_mem_nil a)
  | cons b t ih =>
    intro rm hl hnd hsub
    have hbt : b ∉ t := (List.nodup_cons.mp hl).1
    have ht : t.Nodup := (List.nodup_cons.mp hl).2
    by_cases hb : b ∈ rm
    · have hsplit := List.length_eq_length_filter_add (l := rm) fun c => decide (c = b)
      have h1 : (rm.filter fun c => decide (c = b)).length = 1 :=
        length_filter_eq_self_one hnd hb
      have hcong : t.filter (fun c => decide (c ∈ rm))
          = t.filter fun c => decide (c ∈ rm.filter fun x => !(decide (x = b))) := by
        apply List.filter_congr
        intro c hc
        apply decide_eq_decide.mpr
        simp only [List.mem_filter, Bool.not_eq_eq_eq_not, Bool.not_true, decide_eq_false_iff_not]
        constructor
        · intro hcr
          exact ⟨hcr, fun he => hbt (he ▸ hc)⟩
        · intro hcr
          exact hcr.1
      have hih := ih (rm.filter fun x => !(decide (x = b)))
        ht (List.Nodup.filter _ hnd) ?_
      · have hfc : (b :: t).filter (fun c => decide (c ∈ rm))
            = b :: t.filter (fun c => decide (c ∈ rm)) := by
          simp [List.filter_cons, hb]
        rw [hfc, List.length_cons, hcong, hih]
        omega
      · intro c hc
        have hc1 := List.mem_filter.mp hc
        have hcb : ¬ c = b := by simpa using hc1.2
        have := hsub c hc1.1
        rcases List.mem_cons.mp this with he | hct
        · exact absurd he hcb
        · exact hct
    · have hcong : (b :: t).filter (fun c => decide (c ∈ rm))
          = t.filter fun c => decide (c ∈ rm) := by
        simp [List.filter_cons, hb]
      rw [hcong]
      apply ih rm ht hnd
      intro c hc
      rcases List.mem_cons.mp (hsub c hc) with he | hct
      · exact absurd (he ▸ hc) hb
      · exact hct

/-- Claim C8: `remove_cards_from_deck` returns exactly the cards of the deck
not in the removal collection, preserving the deck's order (a sublist);
removal entries absent from the deck are silently ignored; and removing `n`
distinct deck cards from the full 52-card deck leaves `52 - n` distinct
cards, none of them removed. -/
theorem remove_cards_spec (deck rm : List Card) :
    (∀ c : Card, c ∈ remove_cards_from_deck deck rm ↔ (c ∈ deck ∧ c ∉ rm))
    ∧ List.Sublist (remove_cards_from_deck deck rm) deck
    ∧ remove_cards_from_deck deck rm
        = remove_cards_from_deck deck (rm.filter fun c => decide (c ∈ deck))
    ∧ (rm.Nodup → (∀ c ∈ rm, c ∈ make_deck) →
        (remove_cards_from_deck make_deck rm).length = 52 - rm.length
        ∧ (remove_cards_from_deck make_deck rm).Nodup
        ∧ ∀ c ∈ rm, c ∉ remove_cards_from_deck make_deck rm) := by
  refine ⟨mem_remove_cards deck rm, List.filter_sublist deck, ?_, ?_⟩
  · apply List.filter_congr
    intro c hc
    have : (c ∉ rm) ↔ (c ∉ rm.filter fun x => decide (x ∈ deck)) := by
      simp only [List.mem_filter, decide_eq_true_eq]
      tauto
    exact decide_eq_decide.mpr this
  · intro hnd hsub
    refine ⟨?_, List.Nodup.filter _ (by decide), ?_⟩
    · have hsplit := List.length_eq_length_filter_add
        (l := make_deck) (fun c => decide (c ∉ rm))
      have hneg : (make_deck.filter fun c => !(decide (c ∉ rm)))
          = make_deck.filter fun c => decide (c ∈ rm) := by
        apply List.filter_congr
        intro c _
        by_cases h : c ∈ rm <;> simp [h]
      have hlen : (make_deck.filter fun c => decide (c ∈ rm)).length = rm.length :=
        length_filter_mem make_deck rm (by decide) hnd hsub
      have h52 : make_deck.length = 52 := by decide
      rw [hneg, hlen, h52] at hsplit
      unfold remove_cards_from_deck
      omega
    · intro c hc hmem
      exact ((mem_remove_cards make_deck rm c).mp hmem).2 hc

/-- Closed instance of claim C8: removing two held cards from the full deck. -/
theorem remove_cards_spec_witness :
    (∀ c : Card, c ∈ remove_cards_from_deck make_deck [(14, 0), (13, 0)]
      ↔ (c ∈ make_deck ∧ c ∉ [(14, 0), (13, 0)]))
    ∧ List.Sublist (remove_cards_from_deck make_deck [(14, 0), (13, 0)]) make_deck
    ∧ remove_cards_from_deck make_deck [(14, 0), (13, 0)]
        = remove_cards_from_deck make_deck
            (List.filter (fun c => decide (c ∈ make_deck)) [(14, 0), (13, 0)])
    ∧ (remove_cards_from_deck make_deck [(14, 0), (13, 0)]).length
        = 52 - ([(14, 0), (13, 0)] : List Card).length
    ∧ (remove_cards_from_deck make_deck [(14, 0), (13, 0)]).Nodup
    ∧ ∀ c ∈ ([(14, 0), (13, 0)] : List Card),
        c ∉ remove_cards_from_deck make_deck [(14, 0), (13, 0)] := by
  have h := remove_cards_spec make_deck [(14, 0), (13, 0)]
  have h4 := h.2.2.2 (by decide) (by decide)
  exact ⟨h.1, h.2.1, h.2.2.1, h4.1, h4.2.1, h4.2.2⟩

/-! Totality of the shuffle -/

theorem rand_int_ofNat_some (i : Nat) (s : Seed) :
    rand_int 0 (Int.ofNat i) s
      = some (0 + Int.fmod (Int.ofNat (rand_step s)) (Int.ofNat i - 0 + 1), rand_step s) := by
  have hd : (Int.ofNat i - 0 + 1) ≠ 0 := by
    show ((i : Int) - 0 + 1) ≠ 0
    omega
  simp only [rand_int]
  rw [if_neg hd]

theorem shuffleGo_some : ∀ (idx : List Nat) (l : List Card) (s : Seed),
    ∃ l1 s1, shuffleGo idx l s = some (l1, s1) ∧ l1.length = l.length := by
  intro idx
  induction idx with
  | nil => exact fun l s => ⟨l, s, rfl, rfl⟩
  | cons i rest ih =>
    intro l s
    obtain ⟨l1, s1, hgo, hlen⟩ := ih (listSwap l i
      (Int.toNat (0 + Int.fmod (Int.ofNat (rand_step s)) (Int.ofNat i - 0 + 1)))) (rand_step s)
    refine ⟨l1, s1, ?_, ?_⟩
    · rw [shuffleGo, rand_int_ofNat_some]
      exact hgo
    · rw [hlen]
      unfold listSwap
      rw [List.length_set, List.length_set]

theorem shuffle_some (l : List Card) (s : Seed) :
    ∃ l1 s1, shuffle_in_place l s = some (l1, s1) ∧ l1.length = l.length :=
  shuffleGo_some (downIdx l.length) l s

/-! Structure of the rank-count groups -/

theorem mem_dedupF : ∀ (l : List Nat) (x : Nat), x ∈ dedupF l ↔ x ∈ l := by
  intro l
  induction l with
  | nil => intro x; rfl
  | cons a t ih =>
    intro x
    simp only [dedupF, List.mem_cons, List.mem_filter, bne_iff_ne, ih]
    constructor
    · rintro (rfl | ⟨hx, _⟩)
      · exact Or.inl rfl
      · exact Or.inr hx
    · rintro (rfl | hx)
      · exact Or.inl rfl
      · by_cases hxa : x = a
        · exact Or.inl hxa
        · exact Or.inr ⟨hx, hxa⟩

theorem dedupF_nodup : ∀ l : List Nat, (dedupF l).Nodup := by
  intro l
  induction l with
  | nil => exact List.nodup_nil
  | cons a t ih =>
    rw [dedupF, List.nodup_cons]
    refine ⟨fun hmem => ?_, List.Nodup.filter _ ih⟩
    have := (List.mem_filter.mp hmem).2
    simp at this

theorem sum_map_filter_ne {l : List Nat} {a : Nat} (f : Nat → Nat) (hnd : l.Nodup)
    (ha : a ∈ l) :
    (l.map f).sum = f a + (((l.filter fun x => x != a).map f)).sum := by
  induction l with
  | nil => cases ha
  | cons b t ih =>
    rcases List.mem_cons.mp ha with rfl | hat
    · have hfe : t.filter (fun x => x != a) = t :=
        List.filter_eq_self.mpr fun x hx => by
          simp only [bne_iff_ne, ne_eq, decide_eq_true_eq]
          intro he
          exact (List.nodup_cons.mp hnd).1 (he ▸ hx)
      simp [List.filter_cons, hfe]
    · have hba : (b != a) = true := by
        simp only [bne_iff_ne, ne_eq]
        intro he
        exact (List.nodup_cons.mp hnd).1 (he ▸ hat)
      rw [List.filter_cons, if_pos hba]
      simp only [List.map_cons, List.sum_cons]
      rw [ih (List.nodup_cons.mp hnd).2 hat]
      omega

theorem sum_counts : ∀ l : List Nat, ((dedupF l).map fun r => l.count r).sum = l.length := by
  intro l
  induction l with
  | nil => rfl
  | cons a t ih =>
    rw [dedupF, List.map_cons, List.sum_cons, List.count_cons_self]
    have hmap : ((dedupF t).filter fun x => x != a).map (fun r => (a :: t).count r)
        = ((dedupF t).filter fun x => x != a).map fun r => t.count r := by
      apply List.map_congr_left
      intro x hx
      have hxa : x ≠ a := by
        have := (List.mem_filter.mp hx).2
        simpa using this
      exact List.count_cons_of_ne hxa t
    rw [hmap]
    by_cases hat : a ∈ t
    · have hsplit := sum_map_filter_ne (fun r => t.count r) (dedupF_nodup t)
        ((mem_dedupF t a).mpr hat)
      simp only at hsplit
      rw [ih] at hsplit
      simp only [List.length_cons]
      omega
    · have hfe : (dedupF t).filter (fun x => x != a) = dedupF t :=
        List.filter_eq_self.mpr fun x hx => by
          simp only [bne_iff_ne, ne_eq, decide_eq_true_eq]
          intro he
          exact hat (he ▸ (mem_dedupF t x).mp hx)
      rw [hfe, ih, List.count_eq_zero_of_not_mem hat]
      simp only [List.length_cons]
      omega

theorem countRankPairs_sum (ranks : List Nat) :
    ((countRankPairs ranks).map Prod.fst).sum = ranks.length := by
  have hperm : List.Perm (countRankPairs ranks)
      ((dedupF ranks).map fun r => (ranks.count r, r)) :=
    List.perm_insertionSort pairGE _
  have hs := (hperm.map Prod.fst).sum_eq
  rw [hs, List.map_map]
  have : (Prod.fst ∘ fun r => (ranks.count r, r)) = fun r => ranks.count r := rfl
  rw [this, sum_counts]

theorem countRankPairs_length (ranks : List Nat) :
    (countRankPairs ranks).length = (dedupF ranks).length := by
  unfold countRankPairs
  rw [List.length_insertionSort, List.length_map]

theorem kickerList_length (pairs : List (Nat × Nat)) :
    (kickerList pairs).length = (pairs.map Prod.fst).sum := by
  unfold kickerList sortNatDesc
  rw [List.length_insertionSort, List.flatMap_def, List.length_flatten, List.map_map]
  congr 1
  apply List.map_congr_left
  intro p _
  exact List.length_replicate p.1 p.2

theorem exists_cons3_of_length_le {l : List Nat} (h : 3 ≤ l.length) :
    ∃ a b c t2, l = a :: b :: c :: t2 := by
  match l with
  | [] => simp at h
  | [_] => simp at h
  | [_, _] => simp at h
  | a :: b :: c :: t2 => exact ⟨a, b, c, t2, rfl⟩

theorem exists_cons5_of_length {l : List Nat} (h : l.length = 5) :
    ∃ a b c d e, l = [a, b, c, d, e] := by
  match l with
  | [a, b, c, d, e] => exact ⟨a, b, c, d, e, rfl⟩
  | [] | [_] | [_, _] | [_, _, _] | [_, _, _, _] => simp at h
  | _ :: _ :: _ :: _ :: _ :: _ :: _ => simp at h

/-- On any 5-element rank list every classification branch of the source
reaches a `return`: no `IndexError` is possible, and the returned tuple opens
with a positive category. -/
theorem rank5_core_some (ranks : List Nat) (fl : Bool) (h5 : ranks.length = 5) :
    ∃ c t2, rank5_core ranks fl = some (c :: t2) ∧ 0 < c := by
  simp only [rank5_core]
  by_cases hsf : (fl && (straightInfo (dedupF ranks)).1) = true
  · rw [if_pos hsf]
    exact ⟨9, _, rfl, by omega⟩
  · rw [if_neg hsf]
    have hsum := countRankPairs_sum ranks
    rw [h5] at hsum
    cases hcp : countRankPairs ranks with
    | nil =>
      rw [hcp] at hsum
      simp at hsum
    | cons p0 rest =>
      rw [hcp] at hsum
      simp only [List.map_cons, List.sum_cons] at hsum
      dsimp only
      by_cases h4 : (p0.1 == 4) = true
      · have hp4 : p0.1 = 4 := beq_iff_eq.mp h4
        cases rest with
        | nil =>
          exfalso
          simp only [List.map_nil, List.sum_nil] at hsum
          omega
        | cons p1 rest1 =>
          rw [if_pos h4]
          dsimp only
          exact ⟨8, _, rfl, by omega⟩
      · rw [if_neg h4]
        by_cases h3 : (p0.1 == 3) = true
        · rw [if_pos h3]
          cases rest with
          | nil => exact ⟨4, _, rfl, by omega⟩
          | cons p1 rest1 =>
            dsimp only
            by_cases h12 : (p1.1 == 2) = true
            · rw [if_pos h12]
              exact ⟨7, _, rfl, by omega⟩
            · rw [if_neg h12]
              exact ⟨4, _, rfl, by omega⟩
        · rw [if_neg h3]
          by_cases h2 : (p0.1 == 2) = true
          · have hp2 : p0.1 = 2 := beq_iff_eq.mp h2
            rw [if_pos h2]
            cases rest with
            | nil =>
              exfalso
              simp only [List.map_nil, List.sum_nil] at hsum
              omega
            | cons p1 rest2 =>
              simp only [List.map_cons, List.sum_cons] at hsum
              dsimp only
              by_cases h12 : (p1.1 == 2) = true
              · have hp12 : p1.1 = 2 := beq_iff_eq.mp h12
                rw [if_pos h12]
                cases rest2 with
                | nil =>
                  exfalso
                  simp only [List.map_nil, List.sum_nil] at hsum
                  omega
                | cons p2 rest3 =>
                  dsimp only
                  exact ⟨3, _, rfl, by omega⟩
              · rw [if_neg h12]
                have hkl : 3 ≤ (kickerList (p1 :: rest2)).length := by
                  rw [kickerList_length]
                  simp only [List.map_cons, List.sum_cons]
                  omega
                obtain ⟨k0, k1, k2, t2, hk⟩ := exists_cons3_of_length_le hkl
                unfold onePairOut
                rw [hk]
                exact ⟨2, _, rfl, by omega⟩
          · rw [if_neg h2]
            obtain ⟨r0, r1, r2, r3, r4, hr⟩ := exists_cons5_of_length h5
            by_cases hfl : fl = true
            · rw [if_pos hfl]
              unfold top5
              rw [hr]
              exact ⟨6, _, rfl, by omega⟩
            · rw [if_neg hfl]
              by_cases hsi : (straightInfo (dedupF ranks)).1 = true
              · rw [if_pos hsi]
                exact ⟨5, _, rfl, by omega⟩
              · rw [if_neg hsi]
                unfold top5
                rw [hr]
                exact ⟨1, _, rfl, by omega⟩

/-- `rank_5cards` returns a value on every 5-card input (even with duplicate
cards), and the category component is positive. -/
theorem rank_5cards_some (cards5 : List Card) (h5 : cards5.length = 5) :
    ∃ c t2, rank_5cards cards5 = some (c :: t2) ∧ 0 < c := by
  simp only [rank_5cards]
  have hsl : (sortCardsDesc cards5).length = 5 := by
    rw [sortCardsDesc, List.length_insertionSort, h5]
  have hranks : ((sortCardsDesc cards5).map Prod.fst).length = 5 := by
    rw [List.length_map, hsl]
  cases hs : (sortCardsDesc cards5).map Prod.snd with
  | nil =>
    exfalso
    have : ((sortCardsDesc cards5).map Prod.snd).length = 5 := by
      rw [List.length_map, hsl]
    rw [hs] at this
    simp at this
  | cons s0 srest =>
    dsimp only
    exact rank5_core_some _ _ hranks

/-- Every combination produced by the nested loops is a 5-element list. -/
theorem combos5_length5 {cards7 : List Card} {c : List Card}
    (hc : c ∈ combos5 cards7) : c.length = 5 := by
  simp only [combos5, List.mem_flatMap, List.mem_map] at hc
  obtain ⟨i, _, j, _, k, _, l, _, m, _, rfl⟩ := hc
  rfl

/-- The fold `if r5 > best: best = r5` computes an upper bound of all the
evaluated values and of the initial accumulator, and returns either the
initial accumulator or one of the evaluated values. -/
theorem bestFold_spec : ∀ (L : List (List Card)) (init : List Nat),
    (∀ c ∈ L, (rank_5cards c).isSome = true) →
    ∃ v, bestFold L init = some v
      ∧ (v = init ∨ ∃ c ∈ L, rank_5cards c = some v)
      ∧ tupleLt v init = false
      ∧ ∀ c ∈ L, ∀ w, rank_5cards c = some w → tupleLt v w = false := by
  intro L
  induction L with
  | nil =>
    intro init _
    refine ⟨init, rfl, Or.inl rfl, tupleLt_irrefl init, ?_⟩
    intro c hc
    cases hc
  | cons c0 rest ih =>
    intro init hall
    have hc0 : (rank_5cards c0).isSome = true := hall c0 (List.mem_cons_self c0 rest)
    obtain ⟨r5, hr5⟩ := Option.isSome_iff_exists.mp hc0
    obtain ⟨v, hbf, hmem, hge, hub⟩ :=
      ih (if tupleLt init r5 then r5 else init)
        (fun c hc => hall c (List.mem_cons_of_mem _ hc))
    have hstep : bestFold (c0 :: rest) init
        = bestFold rest (if tupleLt init r5 then r5 else init) := by
      rw [bestFold, hr5]
    have hge_init : tupleLt (if tupleLt init r5 then r5 else init) init = false := by
      split_ifs with hlt
      · exact tupleLt_asymm hlt
      · exact tupleLt_irrefl init
    have hge_r5 : tupleLt (if tupleLt init r5 then r5 else init) r5 = false := by
      split_ifs with hlt
      · exact tupleLt_irrefl r5
      · cases h : tupleLt init r5 with
        | false => rfl
        | true => exact absurd h hlt
    refine ⟨v, by rw [hstep]; exact hbf, ?_, tupleGe_trans hge hge_init, ?_⟩
    · rcases hmem with he | ⟨c, hc, hcv⟩
      · by_cases hlt : tupleLt init r5 = true
        · rw [if_pos hlt] at he
          exact Or.inr ⟨c0, List.mem_cons_self _ _, he ▸ hr5⟩
        · rw [if_neg hlt] at he
          exact Or.inl he
      · exact Or.inr ⟨c, List.mem_cons_of_mem _ hc, hcv⟩
    · intro c hc w hw
      rcases List.mem_cons.mp hc with rfl | hcr
      · have hwr : w = r5 := by
          rw [hw] at hr5
          injection hr5
        rw [hwr]
        exact tupleGe_trans hge hge_r5
      · exact hub c hcr w hw

/-- `rank_7cards` returns a value on every input list: every enumerated
combination has exactly 5 cards, and `rank_5cards` is total on those. -/
theorem rank_7cards_some (cards7 : List Card) : ∃ v, rank_7cards cards7 = some v := by
  unfold rank_7cards
  obtain ⟨v, hv, _⟩ := bestFold_spec (combos5 cards7) [0] (fun c hc => by
    obtain ⟨a, t2, h, _⟩ := rank_5cards_some c (combos5_length5 hc)
    rw [h]
    rfl)
  exact ⟨v, hv⟩

/-! Claim C1: `rank_7cards` is the maximum over the 5-card sub-selections -/

theorem exists_seven {l : List Card} (h : l.length = 7) :
    ∃ a b c d e f g, l = [a, b, c, d, e, f, g] := by
  match l with
  | [a, b, c, d, e, f, g] => exact ⟨a, b, c, d, e, f, g, rfl⟩
  | [] | [_] | [_, _] | [_, _, _] | [_, _, _, _] | [_, _, _, _, _]
  | [_, _, _, _, _, _] => simp at h
  | _ :: _ :: _ :: _ :: _ :: _ :: _ :: _ :: _ => simp at h

/-- On a 7-card list, the source's nested loops enumerate exactly the
length-5 sublists (in reverse of `sublistsLen`'s order). -/
theorem sublistsLen5_eq_reverse_combos5 (a b c d e f g : Card) :
    List.sublistsLen 5 [a, b, c, d, e, f, g]
      = (combos5 [a, b, c, d, e, f, g]).reverse := rfl

theorem combos5_mem_iff {a b c d e f g : Card} {x : List Card} :
    x ∈ combos5 [a, b, c, d, e, f, g]
      ↔ (List.Sublist x [a, b, c, d, e, f, g] ∧ x.length = 5) := by
  constructor
  · intro h
    exact List.mem_sublistsLen.mp (by
      rw [sublistsLen5_eq_reverse_combos5]
      exact List.mem_reverse.mpr h)
  · intro h
    have := List.mem_sublistsLen.mpr h
    rw [sublistsLen5_eq_reverse_combos5] at this
    exact List.mem_reverse.mp this

/-- Claim C1: on every list of exactly 7 distinct cards, `rank_7cards` returns
a value that is greater than or equal (under the Python tuple ordering on
hand strengths) to `rank_5cards` of every 5-card sub-selection, and equal to
`rank_5cards` of at least one 5-card sub-selection. -/
theorem rank_7cards_is_max (cards7 : List Card) (hlen : cards7.length = 7)
    (hnd : cards7.Nodup) :
    ∃ v, rank_7cards cards7 = some v
      ∧ (∀ s, List.Sublist s cards7 → s.length = 5 →
          ∃ w, rank_5cards s = some w ∧ tupleLt v w = false)
      ∧ (∃ s, List.Sublist s cards7 ∧ s.length = 5 ∧ rank_5cards s = some v) := by
  clear hnd
  obtain ⟨a, b, c, d, e, f, g, rfl⟩ := exists_seven hlen
  have hall : ∀ x ∈ combos5 [a, b, c, d, e, f, g], (rank_5cards x).isSome = true := by
    intro x hx
    obtain ⟨c0, t0, hh, _⟩ := rank_5cards_some x (combos5_length5 hx)
    rw [hh]
    rfl
  obtain ⟨v, hbf, hmem, hge0, hub⟩ := bestFold_spec _ [0] hall
  refine ⟨v, hbf, ?_, ?_⟩
  · intro s hsub hslen
    have hs : s ∈ combos5 [a, b, c, d, e, f, g] := combos5_mem_iff.mpr ⟨hsub, hslen⟩
    obtain ⟨c0, t0, hw, hc0⟩ := rank_5cards_some s hslen
    exact ⟨c0 :: t0, hw, hub s hs _ hw⟩
  · rcases hmem with he | ⟨x, hx, hxv⟩
    · exfalso
      have h1 : [a, b, c, d, e] ∈ combos5 [a, b, c, d, e, f, g] := by
        apply combos5_mem_iff.mpr
        refine ⟨?_, rfl⟩
        apply List.Sublist.cons₂
        apply List.Sublist.cons₂
        apply List.Sublist.cons₂
        apply List.Sublist.cons₂
        apply List.Sublist.cons₂
        exact List.nil_sublist _
      obtain ⟨c0, t0, hw, hc0⟩ := rank_5cards_some [a, b, c, d, e] rfl
      have hfalse := hub _ h1 _ hw
      rw [he] at hfalse
      rw [tupleLt_cons, if_pos hc0] at hfalse
      exact Bool.noConfusion hfalse
    · exact ⟨x, (combos5_mem_iff.mp hx).1, (combos5_mem_iff.mp hx).2, hxv⟩

/-- Closed instance of claim C1 at a concrete 7-card hand. -/
theorem rank_7cards_is_max_witness :
    ∃ v, rank_7cards [(14, 0), (13, 0), (12, 0), (11, 0), (10, 0), (2, 2), (3, 2)] = some v
      ∧ (∀ s, List.Sublist s [(14, 0), (13, 0), (12, 0), (11, 0), (10, 0), (2, 2), (3, 2)] →
          s.length = 5 → ∃ w, rank_5cards s = some w ∧ tupleLt v w = false)
      ∧ (∃ s, List.Sublist s [(14, 0), (13, 0), (12, 0), (11, 0), (10, 0), (2, 2), (3, 2)]
          ∧ s.length = 5 ∧ rank_5cards s = some v) :=
  rank_7cards_is_max _ (by decide) (by decide)

/-! Sorted-rank characterization: claims C6 and C9 -/

theorem sorted_ranks_of_sort (l : List Card) :
    List.Sorted natGE ((sortCardsDesc l).map Prod.fst) :=
  List.pairwise_map.mpr (List.sorted_insertionSort cardGE l)

theorem sortedRanks_eq {l : List Card} {R : List Nat}
    (hperm : List.Perm (l.map Prod.fst) R) (hR : List.Sorted natGE R) :
    (sortCardsDesc l).map Prod.fst = R :=
  List.eq_of_perm_of_sorted
    (((List.perm_insertionSort cardGE l).map Prod.fst).trans hperm)
    (sorted_ranks_of_sort l) hR

theorem suits_perm (l : List Card) :
    List.Perm ((sortCardsDesc l).map Prod.snd) (l.map Prod.snd) :=
  (List.perm_insertionSort cardGE l).map Prod.snd

/-- If the suits are not all identical, the flush test of the source is false
and `rank_5cards` reduces to `rank5_core` on the sorted rank list. -/
theorem rank5_eval_nonflush (l : List Card) (R : List Nat)
    (hperm : List.Perm (l.map Prod.fst) R) (hR : List.Sorted natGE R)
    (hlen : l.length = 5)
    (hns : ¬ ∀ x ∈ l.map Prod.snd, ∀ y ∈ l.map Prod.snd, x = y) :
    rank_5cards l = rank5_core R false := by
  simp only [rank_5cards]
  have hranks : (sortCardsDesc l).map Prod.fst = R := sortedRanks_eq hperm hR
  have hslen : ((sortCardsDesc l).map Prod.snd).length = 5 := by
    rw [List.length_map, sortCardsDesc, List.length_insertionSort, hlen]
  cases hs : (sortCardsDesc l).map Prod.snd with
  | nil =>
    exfalso
    rw [hs] at hslen
    simp at hslen
  | cons s0 sr =>
    dsimp only
    rw [hranks]
    rw [hs] at hslen
    congr 1
    cases hc : ((s0 :: sr).count s0 == 5) with
    | false => rfl
    | true =>
      exfalso
      have hc5 : (s0 :: sr).count s0 = 5 := beq_iff_eq.mp hc
      rw [← hslen] at hc5
      have hall := List.count_eq_length.mp hc5
      apply hns
      intro x hx y hy
      have hpm := suits_perm l
      rw [hs] at hpm
      have hx2 : x ∈ s0 :: sr := hpm.mem_iff.mpr hx
      have hy2 : y ∈ s0 :: sr := hpm.mem_iff.mpr hy
      rw [← hall x hx2, ← hall y hy2]

/-- Claim C6: any 5-card hand with ranks `{14,5,4,3,2}` and not all suits
equal evaluates to the wheel straight `(5, 5)`; any 5-card hand with ranks
`{6,5,4,3,2}` and not all suits equal evaluates to `(5, 6)`; and the wheel is
strictly smaller under the hand-strength ordering. -/
theorem wheel_straight_ranking (l1 l2 : List Card)
    (h1 : List.Perm (l1.map Prod.fst) [14, 5, 4, 3, 2])
    (hs1 : ¬ ∀ x ∈ l1.map Prod.snd, ∀ y ∈ l1.map Prod.snd, x = y)
    (h2 : List.Perm (l2.map Prod.fst) [6, 5, 4, 3, 2])
    (hs2 : ¬ ∀ x ∈ l2.map Prod.snd, ∀ y ∈ l2.map Prod.snd, x = y) :
    rank_5cards l1 = some [5, 5] ∧ rank_5cards l2 = some [5, 6]
      ∧ tupleLt [5, 5] [5, 6] = true := by
  have hl1 : l1.length = 5 := by
    have := h1.length_eq
    simpa using this
  have hl2 : l2.length = 5 := by
    have := h2.length_eq
    simpa using this
  refine ⟨?_, ?_, by decide⟩
  · rw [rank5_eval_nonflush l1 [14, 5, 4, 3, 2] h1 (by decide) hl1 hs1]
    decide
  · rw [rank5_eval_nonflush l2 [6, 5, 4, 3, 2] h2 (by decide) hl2 hs2]
    decide

/-- Closed instance of claim C6 at concrete wheel and six-high straights. -/
theorem wheel_straight_ranking_witness :
    rank_5cards [(14, 0), (5, 1), (4, 2), (3, 3), (2, 0)] = some [5, 5]
      ∧ rank_5cards [(6, 0), (5, 1), (4, 2), (3, 3), (2, 0)] = some [5, 6]
      ∧ tupleLt [5, 5] [5, 6] = true :=
  wheel_straight_ranking _ _ (by decide) (by decide) (by decide) (by decide)

/-- Claim C9: `rank_5cards` is invariant under permutation of a valid 5-card
hand. -/
theorem rank_5cards_perm_invariant (l1 l2 : List Card) (h5 : l1.length = 5)
    (hnd : l1.Nodup) (hperm : List.Perm l2 l1) :
    rank_5cards l2 = rank_5cards l1 := by
  clear hnd
  have hl2 : l2.length = 5 := hperm.length_eq.trans h5
  have hranks : (sortCardsDesc l2).map Prod.fst = (sortCardsDesc l1).map Prod.fst :=
    sortedRanks_eq ((hperm.map Prod.fst).trans
        ((List.perm_insertionSort cardGE l1).map Prod.fst).symm)
      (sorted_ranks_of_sort l1)
  have hsp : List.Perm ((sortCardsDesc l2).map Prod.snd)
      ((sortCardsDesc l1).map Prod.snd) :=
    ((suits_perm l2).trans (hperm.map Prod.snd)).trans (suits_perm l1).symm
  have hlen1 : ((sortCardsDesc l1).map Prod.snd).length = 5 := by
    rw [List.length_map, sortCardsDesc, List.length_insertionSort, h5]
  have hlen2 : ((sortCardsDesc l2).map Prod.snd).length = 5 := by
    rw [List.length_map, sortCardsDesc, List.length_insertionSort, hl2]
  simp only [rank_5cards]
  cases hs1 : (sortCardsDesc l1).map Prod.snd with
  | nil =>
    exfalso
    rw [hs1] at hlen1
    simp at hlen1
  | cons s1 r1 =>
    cases hs2 : (sortCardsDesc l2).map Prod.snd with
    | nil =>
      exfalso
      rw [hs2] at hlen2
      simp at hlen2
    | cons s2 r2 =>
      dsimp only
      rw [hranks]
      congr 1
      rw [hs1] at hlen1 hsp
      rw [hs2] at hlen2 hsp
      rw [Bool.eq_iff_iff, beq_iff_eq, beq_iff_eq]
      have e1 : ((s1 :: r1).count s1 = 5) ↔ ∀ b ∈ s1 :: r1, s1 = b := by
        rw [← hlen1, List.count_eq_length]
      have e2 : ((s2 :: r2).count s2 = 5) ↔ ∀ b ∈ s2 :: r2, s2 = b := by
        rw [← hlen2, List.count_eq_length]
      rw [e1, e2]
      constructor
      · intro hall x hx
        have h1 := hall s1 (hsp.mem_iff.mpr (List.mem_cons_self s1 r1))
        have h2 := hall x (hsp.mem_iff.mpr hx)
        rw [← h1, h2]
      · intro hall x hx
        have h1 := hall s2 (hsp.mem_iff.mp (List.mem_cons_self s2 r2))
        have h2 := hall x (hsp.mem_iff.mp hx)
        rw [← h1, h2]

/-- Closed instance of claim C9: a reversed hand evaluates identically. -/
theorem rank_5cards_perm_invariant_witness :
    rank_5cards [(9, 0), (11, 3), (12, 2), (13, 1), (14, 0)]
      = rank_5cards [(14, 0), (13, 1), (12, 2), (11, 3), (9, 0)] :=
  rank_5cards_perm_invariant [(14, 0), (13, 1), (12, 2), (11, 3), (9, 0)]
    [(9, 0), (11, 3), (12, 2), (13, 1), (14, 0)] (by decide) (by decide) (by decide)

/-! Claim C2: the simulator classifies trials and returns (wins+ties)/trials -/

theorem oppFold_counts (pr : List Nat) (fc : List Card) :
    ∀ (holes : List (List Card)) (bc sc : Nat),
    ∃ ors, ranksOf fc holes = some ors
      ∧ ors.length = holes.length
      ∧ oppFold pr fc holes bc sc
          = some (bc + ors.countP (fun r => tupleLt pr r),
                  sc + ors.countP (fun r => !(tupleLt pr r) && (r == pr))) := by
  intro holes
  induction holes with
  | nil =>
    intro bc sc
    exact ⟨[], rfl, rfl, by simp [oppFold]⟩
  | cons oh rest ih =>
    intro bc sc
    obtain ⟨r, hr⟩ := rank_7cards_some (oh ++ fc)
    by_cases hlt : tupleLt pr r = true
    · obtain ⟨ors, hors, hlen, hof⟩ := ih (bc + 1) sc
      have e1 : List.countP (fun x => tupleLt pr x) (r :: ors)
          = List.countP (fun x => tupleLt pr x) ors + 1 := by
        rw [List.countP_cons, hlt]
        rfl
      have e2 : List.countP (fun x => !(tupleLt pr x) && (x == pr)) (r :: ors)
          = List.countP (fun x => !(tupleLt pr x) && (x == pr)) ors := by
        rw [List.countP_cons, hlt]
        rfl
      refine ⟨r :: ors, ?_, by simp [hlen], ?_⟩
      · rw [ranksOf, hr, hors]
      · rw [oppFold, hr]
        dsimp only
        rw [if_pos hlt, hof, e1, e2]
        have e3 : bc + 1 + List.countP (fun x => tupleLt pr x) ors
            = bc + (List.countP (fun x => tupleLt pr x) ors + 1) := by omega
        rw [e3]
    · have hlt2 : tupleLt pr r = false := by
        cases h : tupleLt pr r with
        | false => rfl
        | true => exact absurd h hlt
      by_cases heq : (r == pr) = true
      · obtain ⟨ors, hors, hlen, hof⟩ := ih bc (sc + 1)
        have e1 : List.countP (fun x => tupleLt pr x) (r :: ors)
            = List.countP (fun x => tupleLt pr x) ors := by
          rw [List.countP_cons, hlt2]
          rfl
        have e2 : List.countP (fun x => !(tupleLt pr x) && (x == pr)) (r :: ors)
            = List.countP (fun x => !(tupleLt pr x) && (x == pr)) ors + 1 := by
          rw [List.countP_cons, hlt2, heq]
          rfl
        refine ⟨r :: ors, ?_, by simp [hlen], ?_⟩
        · rw [ranksOf, hr, hors]
        · rw [oppFold, hr]
          dsimp only
          rw [if_neg (by rw [hlt2]; exact Bool.noConfusion), if_pos heq, hof, e1, e2]
          have e3 : sc + 1 + List.countP (fun x => !(tupleLt pr x) && (x == pr)) ors
              = sc + (List.countP (fun x => !(tupleLt pr x) && (x == pr)) ors + 1) := by
            omega
          rw [e3]
      · have heq2 : (r == pr) = false := by
          cases h : (r == pr) with
          | false => rfl
          | true => exact absurd h heq
        obtain ⟨ors, hors, hlen, hof⟩ := ih bc sc
        have e1 : List.countP (fun x => tupleLt pr x) (r :: ors)
            = List.countP (fun x => tupleLt pr x) ors := by
          rw [List.countP_cons, hlt2]
          rfl
        have e2 : List.countP (fun x => !(tupleLt pr x) && (x == pr)) (r :: ors)
            = List.countP (fun x => !(tupleLt pr x) && (x == pr)) ors := by
          rw [List.countP_cons, hlt2, heq2]
          rfl
        refine ⟨r :: ors, ?_, by simp [hlen], ?_⟩
        · rw [ranksOf, hr, hors]
        · rw [oppFold, hr]
          dsimp only
          rw [if_neg (by rw [hlt2]; exact Bool.noConfusion),
            if_neg (by rw [heq2]; exact Bool.noConfusion), hof, e1, e2]

theorem count_win_tie_le (rs : List TrialRes) :
    rs.count TrialRes.win + rs.count TrialRes.tie ≤ rs.length := by
  induction rs with
  | nil => simp
  | cons a t ih =>
    rw [List.count_cons, List.count_cons, List.length_cons]
    cases a <;> simp <;> omega

theorem simLoop_eq_trialResults (pc kc : List Card) (opps : Nat) (bd : List Card) :
    ∀ (n : Nat) (s : Seed) (w t tot : Nat),
    ∃ rs sF, trialResults pc kc opps bd n s = some (rs, sF)
      ∧ rs.length = n
      ∧ simLoop pc kc opps bd n w t tot s
          = some (w + rs.count TrialRes.win, t + rs.count TrialRes.tie, tot + n, sF) := by
  intro n
  induction n with
  | zero =>
    intro s w t tot
    exact ⟨[], s, rfl, rfl, by simp [simLoop, trialResults]⟩
  | succ n ih =>
    intro s w t tot
    obtain ⟨sim1, s1, hsh, _⟩ := shuffle_some bd s
    obtain ⟨pr, hpr⟩ := rank_7cards_some
      (pc ++ (kc ++ sim1.take (pySplitIdx sim1.length (5 - (kc.length : Int)))))
    obtain ⟨ors, hors, _, hof⟩ := oppFold_counts pr
      (kc ++ sim1.take (pySplitIdx sim1.length (5 - (kc.length : Int))))
      ((dealOpp opps (sim1.drop (pySplitIdx sim1.length (5 - (kc.length : Int))))).1) 0 0
    simp only [Nat.zero_add] at hof
    by_cases hex : ∃ r ∈ ors, tupleLt pr r = true
    · -- some opponent strictly exceeds: loss
      have hbc : ors.countP (fun r => tupleLt pr r) ≠ 0 := by
        rw [Ne, List.countP_eq_zero]
        push_neg
        exact hex
      have hc1 : ¬ ((ors.countP (fun r => tupleLt pr r) == 0) = true) :=
        fun h => hbc (beq_iff_eq.mp h)
      obtain ⟨rs, sF, htr, hlen, hsl⟩ := ih s1 w t (tot + 1)
      have hcl : classify pr ors = TrialRes.loss := by
        unfold classify
        rw [if_pos hex]
      refine ⟨TrialRes.loss :: rs, sF, ?_, by simp [hlen], ?_⟩
      · rw [trialResults, hsh]
        dsimp only
        rw [hpr, hors]
        dsimp only
        rw [htr]
        dsimp only
        rw [hcl]
      · rw [simLoop, hsh]
        dsimp only
        rw [hpr]
        dsimp only
        rw [hof]
        dsimp only
        rw [if_neg hc1, if_neg hc1, hsl]
        have ew : (TrialRes.loss :: rs).count TrialRes.win = rs.count TrialRes.win := by
          simp [List.count_cons]
        have et : (TrialRes.loss :: rs).count TrialRes.tie = rs.count TrialRes.tie := by
          simp [List.count_cons]
        rw [ew, et, show tot + 1 + n = tot + (n + 1) by omega]
    · -- no opponent exceeds
      have hbc : ors.countP (fun r => tupleLt pr r) = 0 := by
        rw [List.countP_eq_zero]
        intro r hrr hc
        exact hex ⟨r, hrr, hc⟩
      have hc1 : ((ors.countP (fun r => tupleLt pr r) == 0) = true) := beq_iff_eq.mpr hbc
      have hallle : ∀ r ∈ ors, tupleLt pr r = false := by
        intro r hrr
        cases h : tupleLt pr r with
        | false => rfl
        | true => exact absurd ⟨r, hrr, h⟩ hex
      by_cases heq : ∃ r ∈ ors, r = pr
      · -- somebody ties: tie
        have hsc : ors.countP (fun r => !(tupleLt pr r) && (r == pr)) ≠ 0 := by
          rw [Ne, List.countP_eq_zero]
          push_neg
          obtain ⟨r, hrr, hrp⟩ := heq
          refine ⟨r, hrr, ?_⟩
          rw [hallle r hrr, hrp]
          simp
        have hc2 : ¬ ((ors.countP (fun r => !(tupleLt pr r) && (r == pr)) == 0) = true) :=
          fun h => hsc (beq_iff_eq.mp h)
        obtain ⟨rs, sF, htr, hlen, hsl⟩ := ih s1 w (t + 1) (tot + 1)
        have hcl : classify pr ors = TrialRes.tie := by
          unfold classify
          rw [if_neg (by
              push_neg
              intro r hrr
              rw [hallle r hrr]
              exact Bool.noConfusion),
            if_pos heq]
        refine ⟨TrialRes.tie :: rs, sF, ?_, by simp [hlen], ?_⟩
        · rw [trialResults, hsh]
          dsimp only
          rw [hpr, hors]
          dsimp only
          rw [htr]
          dsimp only
          rw [hcl]
        · rw [simLoop, hsh]
          dsimp only
          rw [hpr]
          dsimp only
          rw [hof]
          dsimp only
          rw [if_pos hc1, if_pos hc1, if_neg hc2, if_neg hc2, hsl]
          have ew : (TrialRes.tie :: rs).count TrialRes.win = rs.count TrialRes.win := by
            simp [List.count_cons]
          have et : (TrialRes.tie :: rs).count TrialRes.tie
              = rs.count TrialRes.tie + 1 := by
            simp [List.count_cons]
          rw [ew, et, show t + 1 + rs.count TrialRes.tie
              = t + (rs.count TrialRes.tie + 1) by omega,
            show tot + 1 + n = tot + (n + 1) by omega]
      · -- nobody exceeds, nobody ties: win
        have hsc : ors.countP (fun r => !(tupleLt pr r) && (r == pr)) = 0 := by
          rw [List.countP_eq_zero]
          intro r hrr hc
          have hr2 : (r == pr) = true := by
            rw [hallle r hrr] at hc
            simpa using hc
          exact heq ⟨r, hrr, beq_iff_eq.mp hr2⟩
        have hc2 : ((ors.countP (fun r => !(tupleLt pr r) && (r == pr)) == 0) = true) :=
          beq_iff_eq.mpr hsc
        obtain ⟨rs, sF, htr, hlen, hsl⟩ := ih s1 (w + 1) t (tot + 1)
        have hcl : classify pr ors = TrialRes.win := by
          unfold classify
          rw [if_neg (by
              push_neg
              intro r hrr
              rw [hallle r hrr]
              exact Bool.noConfusion),
            if_neg (by
              push_neg
              intro r hrr hrp
              exact heq ⟨r, hrr, hrp⟩)]
        refine ⟨TrialRes.win :: rs, sF, ?_, by simp [hlen], ?_⟩
        · rw [trialResults, hsh]
          dsimp only
          rw [hpr, hors]
          dsimp only
          rw [htr]
          dsimp only
          rw [hcl]
        · rw [simLoop, hsh]
          dsimp only
          rw [hpr]
          dsimp only
          rw [hof]
          dsimp only
          rw [if_pos hc1, if_pos hc1, if_pos hc2, if_pos hc2, hsl]
          have ew : (TrialRes.win :: rs).count TrialRes.win
              = rs.count TrialRes.win + 1 := by
            simp [List.count_cons]
          have et : (TrialRes.win :: rs).count TrialRes.tie = rs.count TrialRes.tie := by
            simp [List.count_cons]
          rw [ew, et, show w + 1 + rs.count TrialRes.win
              = w + (rs.count TrialRes.win + 1) by omega,
            show tot + 1 + n = tot + (n + 1) by omega]

/-- Claim C2: with a positive trial count, the simulator runs `sims` trials,
classifying each one as a loss when some opponent's `rank_7cards` value
strictly exceeds the hero's, as a tie when no opponent exceeds but some
opponent equals it exactly, and as a win otherwise; the returned value is
exactly `(wins + ties) / trials` and lies in `[0, 1]`. -/
theorem simulate_win_probability_spec (pc kc : List Card) (opps : Nat)
    (deck : List Card) (sims : Nat) (s : Seed) (hs : 0 < sims) :
    ∃ rs sF,
      trialResults pc kc opps (baseDeckOf pc kc deck) sims s = some (rs, sF)
      ∧ rs.length = sims
      ∧ simulate_win_probability pc kc opps deck sims s
          = some (((rs.count TrialRes.win + rs.count TrialRes.tie : Nat) : ℚ)
              / (sims : ℚ), sF)
      ∧ 0 ≤ ((rs.count TrialRes.win + rs.count TrialRes.tie : Nat) : ℚ) / (sims : ℚ)
      ∧ ((rs.count TrialRes.win + rs.count TrialRes.tie : Nat) : ℚ) / (sims : ℚ) ≤ 1 := by
  obtain ⟨rs, sF, htr, hlen, hsl⟩ :=
    simLoop_eq_trialResults pc kc opps (baseDeckOf pc kc deck) sims s 0 0 0
  simp only [Nat.zero_add] at hsl
  refine ⟨rs, sF, htr, hlen, ?_, ?_, ?_⟩
  · unfold simulate_win_probability
    rw [hsl]
    dsimp only
    rw [if_neg (fun h => Nat.pos_iff_ne_zero.mp hs (beq_iff_eq.mp h))]
    congr 2
    push_cast
    ring
  · positivity
  · rw [div_le_one (by exact_mod_cast hs)]
    have hb := count_win_tie_le rs
    rw [hlen] at hb
    exact_mod_cast hb

/-- Closed instance of claim C2 at a concrete simulation. -/
theorem simulate_win_probability_spec_witness :
    ∃ rs sF,
      trialResults [(14, 0), (14, 1)] [] 1
          (baseDeckOf [(14, 0), (14, 1)] [] make_deck) 2 5674832 = some (rs, sF)
      ∧ rs.length = 2
      ∧ simulate_win_probability [(14, 0), (14, 1)] [] 1 make_deck 2 5674832
          = some (((rs.count TrialRes.win + rs.count TrialRes.tie : Nat) : ℚ)
              / ((2 : Nat) : ℚ), sF)
      ∧ 0 ≤ ((rs.count TrialRes.win + rs.count TrialRes.tie : Nat) : ℚ) / ((2 : Nat) : ℚ)
      ∧ ((rs.count TrialRes.win + rs.count TrialRes.tie : Nat) : ℚ) / ((2 : Nat) : ℚ) ≤ 1 :=
  simulate_win_probability_spec [(14, 0), (14, 1)] [] 1 make_deck 2 5674832 (by decide)

/-! Claim C10: the simulator never mutates the caller's lists -/

theorem set_append_right_heap : ∀ (l1 l2 : Heap) (k : Nat) (v : List Card),
    (l1 ++ l2).set (l1.length + k) v = l1 ++ l2.set k v := by
  intro l1
  induction l1 with
  | nil => intro l2 k v; simp
  | cons a t ih =>
    intro l2 k v
    simp only [List.cons_append, List.length_cons, List.set, Nat.succ_add]
    rw [ih]

theorem set_append_len (h : Heap) (b v : List Card) :
    (h ++ [b]).set h.length v = h ++ [v] := by
  have := set_append_right_heap h [b] 0 v
  simpa using this

theorem hRead_append {h : Heap} (ext : Heap) {a : Nat} (ha : a < h.length) :
    hRead (h ++ ext) a = hRead h a := by
  unfold hRead
  rw [List.getElem?_append_left ha]

theorem hRead_append_len (h : Heap) (v : List Card) :
    hRead (h ++ [v]) h.length = v := by
  unfold hRead
  rw [List.getElem?_append_right (Nat.le_refl _), Nat.sub_self]
  rfl

theorem simHeapLoop_extends (pA cA : Nat) (opps : Nat) (bd : List Card) :
    ∀ (n : Nat) (h : Heap) (s : Seed) (w t tot : Nat),
    ∃ w2 t2 hF sF ext, simHeapLoop pA cA opps bd n w t tot h s
        = some (w2, t2, tot + n, hF, sF) ∧ hF = h ++ ext := by
  intro n
  induction n with
  | zero =>
    intro h s w t tot
    exact ⟨w, t, h, s, [], by simp [simHeapLoop], by simp⟩
  | succ n ih =>
    intro h s w t tot
    obtain ⟨l1, s1, hsh, _⟩ := shuffle_some bd s
    have hsh2 : shuffle_heap h.length (h ++ [bd]) s = some (h ++ [l1], s1) := by
      unfold shuffle_heap
      rw [hRead_append_len, hsh]
      dsimp only
      unfold hWrite
      rw [set_append_len]
    obtain ⟨pr, hpr⟩ := rank_7cards_some
      (hRead h pA ++ (hRead h cA
        ++ l1.take (pySplitIdx l1.length (5 - ((hRead h cA).length : Int)))))
    obtain ⟨ors, hors, _, hof⟩ := oppFold_counts pr
      (hRead h cA ++ l1.take (pySplitIdx l1.length (5 - ((hRead h cA).length : Int))))
      ((dealOpp opps
        (l1.drop (pySplitIdx l1.length (5 - ((hRead h cA).length : Int))))).1) 0 0
    simp only [Nat.zero_add] at hof
    obtain ⟨w2, t2, hF, sF, ext, hloop, hext⟩ := ih (h ++ [l1]) s1
      (if (ors.countP (fun r => tupleLt pr r) == 0) = true then
        (if (ors.countP (fun r => !(tupleLt pr r) && (r == pr)) == 0) = true
          then w + 1 else w) else w)
      (if (ors.countP (fun r => tupleLt pr r) == 0) = true then
        (if (ors.countP (fun r => !(tupleLt pr r) && (r == pr)) == 0) = true
          then t else t + 1) else t)
      (tot + 1)
    refine ⟨w2, t2, hF, sF, [l1] ++ ext, ?_, by rw [hext, List.append_assoc]⟩
    rw [simHeapLoop]
    dsimp only
    rw [show hAlloc h bd = h ++ [bd] from rfl, hsh2]
    dsimp only
    rw [hRead_append_len, hpr]
    dsimp only
    rw [hof]
    dsimp only
    rw [hloop, show tot + 1 + n = tot + (n + 1) by omega]

/-- Claim C10: `simulate_win_probability` never mutates its inputs: with the
caller's hole-card, community and deck lists held in heap cells, a completed
call leaves every pre-existing heap cell unchanged (each trial only allocates
a fresh cell for `sim_deck = base_deck[:]` and shuffles that fresh cell). -/
theorem simulate_heap_frame (pA cA dA opps sims : Nat) (h : Heap) (s : Seed)
    (hp : pA < h.length) (hc : cA < h.length) (hd : dA < h.length)
    (hs : 0 < sims) :
    ∃ q hF sF, simulate_win_probability_heap pA cA dA opps sims h s = some (q, hF, sF)
      ∧ (∀ a, a < h.length → hRead hF a = hRead h a)
      ∧ hRead hF pA = hRead h pA
      ∧ hRead hF cA = hRead h cA
      ∧ hRead hF dA = hRead h dA := by
  obtain ⟨w2, t2, hF, sF, ext, hloop, hext⟩ := simHeapLoop_extends pA cA opps
    (baseDeckOf (hRead h pA) (hRead h cA) (hRead h dA)) sims h s 0 0 0
  simp only [Nat.zero_add] at hloop
  have hreads : ∀ a, a < h.length → hRead hF a = hRead h a := by
    intro a ha
    rw [hext]
    exact hRead_append ext ha
  refine ⟨((w2 : ℚ) + (t2 : ℚ)) / ((sims : Nat) : ℚ), hF, sF, ?_, hreads,
    hreads pA hp, hreads cA hc, hreads dA hd⟩
  simp only [simulate_win_probability_heap]
  rw [hloop]
  dsimp only
  rw [if_neg (fun hz => Nat.pos_iff_ne_zero.mp hs (beq_iff_eq.mp hz))]

/-- Closed instance of claim C10 on a concrete three-cell heap. -/
theorem simulate_heap_frame_witness :
    ∃ q hF sF,
      simulate_win_probability_heap 0 1 2 1 2
          [[(14, 0), (14, 1)], [], make_deck] 5674832 = some (q, hF, sF)
      ∧ (∀ a, a < ([[(14, 0), (14, 1)], [], make_deck] : Heap).length →
          hRead hF a = hRead [[(14, 0), (14, 1)], [], make_deck] a)
      ∧ hRead hF 0 = hRead [[(14, 0), (14, 1)], [], make_deck] 0
      ∧ hRead hF 1 = hRead [[(14, 0), (14, 1)], [], make_deck] 1
      ∧ hRead hF 2 = hRead [[(14, 0), (14, 1)], [], make_deck] 2 :=
  simulate_heap_frame 0 1 2 1 2 [[(14, 0), (14, 1)], [], make_deck] 5674832
    (by decide) (by decide) (by decide) (by decide)

/-! Claim C5: there is no contract validation -/

/-- Counterexample to claim C5 as stated: a 6-card call of `rank_7cards`
returns a value (the best of the C(6,5) selections) instead of raising; a
5-card hand containing a duplicate card is evaluated as a pair instead of
raising; and the simulator dealt from an empty deck with 3 opponents returns
a value instead of raising. -/
theorem no_validation_counterexample :
    rank_7cards [(2, 0), (3, 1), (4, 2), (5, 3), (7, 0), (8, 1)]
        = some [1, 8, 7, 5, 4, 3]
    ∧ rank_5cards [(2, 0), (2, 0), (3, 1), (4, 2), (5, 3)] = some [2, 2, 5, 4, 3]
    ∧ (simulate_win_probability [(2, 0), (3, 0)] [] 3 [] 1 0).isSome = true := by
  refine ⟨by decide, by decide, ?_⟩
  rfl

/-- Claim C5 amended: the code performs no cardinality, duplicate or deck-size
validation. `rank_5cards` returns a value on every 5-element list (duplicates
included), `rank_7cards` returns a value on every input list (including wrong
cardinalities; fewer than 5 cards yield the sentinel `(0,)`), and a positive
trial count makes `simulate_win_probability` return a probability for every
deck, silently dealing short hands when the deck is too small. -/
theorem no_contract_validation :
    (∀ l : List Card, l.length = 5 → (rank_5cards l).isSome = true)
    ∧ (∀ l : List Card, (rank_7cards l).isSome = true)
    ∧ (∀ (pc kc : List Card) (opps : Nat) (deck : List Card) (sims : Nat) (s : Seed),
        0 < sims → (simulate_win_probability pc kc opps deck sims s).isSome = true) := by
  refine ⟨?_, ?_, ?_⟩
  · intro l h5
    obtain ⟨c, t, hh, _⟩ := rank_5cards_some l h5
    rw [hh]
    rfl
  · intro l
    obtain ⟨v, hv⟩ := rank_7cards_some l
    rw [hv]
    rfl
  · intro pc kc opps deck sims s hs
    obtain ⟨rs, sF, _, _, hsl⟩ :=
      simLoop_eq_trialResults pc kc opps (baseDeckOf pc kc deck) sims s 0 0 0
    simp only [Nat.zero_add] at hsl
    unfold simulate_win_probability
    rw [hsl]
    dsimp only
    rw [if_neg (fun h => Nat.pos_iff_ne_zero.mp hs (beq_iff_eq.mp h))]
    rfl

/-- Closed instance of the amended claim C5 at contract-violating inputs. -/
theorem no_contract_validation_witness :
    (rank_5cards [(2, 0), (2, 0), (3, 1), (4, 2), (5, 3)]).isSome = true
    ∧ (rank_7cards [(2, 0), (3, 1), (4, 2), (5, 3), (7, 0), (8, 1)]).isSome = true
    ∧ (simulate_win_probability [(2, 0), (3, 0)] [] 3 [] 1 0).isSome = true :=
  ⟨no_contract_validation.1 _ (by decide), no_contract_validation.2.1 _,
    no_contract_validation.2.2 [(2, 0), (3, 0)] [] 3 [] 1 0 (by decide)⟩
